import Mathlib

/-!
Verification development for the `immutable-gametree` library
(`src/GameTree.js`).  The JavaScript class `GameTree` is shallowly
embedded: nodes become an inductive type, the per-instance mutable
caches become explicit state threaded through the functions that touch
them, JavaScript generators become functions producing lists, functions
whose recursion is not structurally bounded in the source (parent-chain
or `currents`-driven recursion) take an explicit fuel argument and
return `none` when the fuel runs out (modelling non-termination), and
thrown exceptions become `Except.error`.

Node identifiers are modelled as natural numbers (the default generator
issues consecutive integers) and node payloads (`data`), which the core
never inspects, as a single opaque natural number.
-/

/-- A tree node, mirroring the plain objects stored in `GameTree`:
`{id, data, parentId, children}` (`GameTree.js` constructor).  `data` is
opaque to the library and is modelled by a single `Nat`. -/
inductive Node where
  | mk : Nat → Nat → Option Nat → List Node → Node

mutual

/-- Decidable equality of nodes (deriving cannot handle the nested
inductive on this Lean version, so the instance is spelled out). -/
def nodeDecEq : (a b : Node) → Decidable (a = b)
  | .mk i d p cs, .mk i' d' p' cs' =>
    if h1 : i = i' then
      if h2 : d = d' then
        if h3 : p = p' then
          match nodeListDecEq cs cs' with
          | isTrue h4 => isTrue (by rw [h1, h2, h3, h4])
          | isFalse h4 => isFalse (by intro h; injection h; contradiction)
        else isFalse (by intro h; injection h; contradiction)
      else isFalse (by intro h; injection h; contradiction)
    else isFalse (by intro h; injection h; contradiction)

/-- Decidable equality of node lists. -/
def nodeListDecEq : (a b : List Node) → Decidable (a = b)
  | [], [] => isTrue rfl
  | [], _ :: _ => isFalse (by intro h; injection h)
  | _ :: _, [] => isFalse (by intro h; injection h)
  | a :: as, b :: bs =>
    match nodeDecEq a b, nodeListDecEq as bs with
    | isTrue h1, isTrue h2 => isTrue (by rw [h1, h2])
    | isFalse h1, _ => isFalse (by intro h; injection h; contradiction)
    | _, isFalse h2 => isFalse (by intro h; injection h; contradiction)

end

instance : DecidableEq Node := nodeDecEq

/-- The `id` field of a node. -/
def Node.id : Node → Nat
  | .mk i _ _ _ => i

/-- The `data` (payload) field of a node. -/
def Node.data : Node → Nat
  | .mk _ d _ _ => d

/-- The `parentId` field of a node (`null` becomes `none`). -/
def Node.parentId : Node → Option Nat
  | .mk _ _ p _ => p

/-- The ordered `children` field of a node. -/
def Node.children : Node → List Node
  | .mk _ _ _ cs => cs

mutual
/-- All nodes of the subtree rooted at `n`, in depth-first preorder:
the order in which `listNodes` (GameTree.js lines 112-122) yields them. -/
def nodesOf : Node → List Node
  | .mk i d p cs => .mk i d p cs :: nodesOfList cs

/-- Preorder concatenation of the subtrees of a list of children. -/
def nodesOfList : List Node → List Node
  | [] => []
  | c :: cs => nodesOf c ++ nodesOfList cs
end

/-- The ids of all nodes of the subtree rooted at `n`, in preorder. -/
def idsOf (n : Node) : List Nat := (nodesOf n).map Node.id

/-- Number of nodes of the subtree rooted at `n`. -/
def countNodes (n : Node) : Nat := (nodesOf n).length

/-- The memoization cache `_nodeCache`: an association list from an id to
the cached lookup result, `some none` being the explicit known-absent
sentinel (`this._nodeCache[id] = null`).  More recent writes are consed
to the front, shadowing older entries. -/
abbrev Cache := List (Nat × Option Node)

/-- A `GameTree` instance: the root node plus the per-instance state
(`_idAliases`, `_nodeCache`, `_heightCache`, `_structureHashCache`)
set up by the constructor (GameTree.js lines 26-30).  The external
collaborators `getId` and `merger` are opaque to every operation
verified here and are not modelled. -/
structure GameTree where
  root : Node
  idAliases : List (Nat × Nat) := []
  nodeCache : Cache := []
  heightCache : Option Nat := none
  structureHashCache : Option Nat := none
deriving DecidableEq

/-- First-match association-list lookup (JavaScript `id in table` /
`table[id]` on a plain object). -/
def assocFind {α : Type} : List (Nat × α) → Nat → Option α
  | [], _ => none
  | (k, v) :: rest, i => if k = i then some v else assocFind rest i

/-- Lookup in the alias table `_idAliases`. -/
def lookupAlias (al : List (Nat × Nat)) (i : Nat) : Option Nat :=
  assocFind al i

/-- Follow the alias chain (`if (id in this._idAliases) return
this.get(this._idAliases[id])`, GameTree.js line 36) with explicit fuel;
`none` means the fuel ran out, i.e. the chain did not terminate. -/
def resolveIdF (al : List (Nat × Nat)) : Nat → Nat → Option Nat
  | 0, _ => none
  | fuel + 1, i =>
    match lookupAlias al i with
    | none => some i
    | some j => resolveIdF al fuel j

/-- Alias resolution as `get` performs it.  A terminating alias chain
never revisits a key, so it has length at most the size of the table and
fuel `length + 1` always suffices; a cyclic chain (a caller error the
source does not handle, on which the JavaScript recursion diverges) runs
out of fuel and yields `none`. -/
def resolveId (t : GameTree) (i : Nat) : Option Nat :=
  resolveIdF t.idAliases (t.idAliases.length + 1) i

mutual
/-- The pure depth-first search performed by `inner` inside `get`
(GameTree.js lines 41-51), without the memoization writes: return the
first node in preorder whose `id` equals `i`. -/
def findNode (i : Nat) : Node → Option Node
  | .mk j d p cs => if j = i then some (.mk j d p cs) else findNodeList i cs

/-- `findNode` over a child list: first non-absent result wins. -/
def findNodeList (i : Nat) : List Node → Option Node
  | [] => none
  | c :: cs =>
    match findNode i c with
    | some r => some r
    | none => findNodeList i cs
end

/-- `get(id)` (GameTree.js lines 33-66) as a pure function of the tree:
absent id is absent, aliases are resolved first, then the tree is
searched from the root.  The memoization cache, which the theorem for
claim C1 proves observationally transparent, is omitted here; the
cache-threading version is `getC` below. -/
def GameTree.get (t : GameTree) : Option Nat → Option Node
  | none => none
  | some i =>
    match resolveId t i with
    | none => none
    | some r => findNode r t.root

/-! ## The memoizing `get` (cache-threading version)

`get` mutates `this._nodeCache`; the embedding threads the cache
explicitly and the theorem for claim C1 proves the cache transparent. -/

mutual
/-- The memoizing depth-first search `inner` (GameTree.js lines 41-51):
every visited node is written to the cache (`this._nodeCache[node.id] =
node`) before the id comparison; the first preorder match is returned. -/
def dfsMemo (i : Nat) : Node → Cache → Option Node × Cache
  | .mk j d p cs, cache =>
    let cache1 := (j, some (Node.mk j d p cs)) :: cache
    if j = i then (some (.mk j d p cs), cache1)
    else dfsMemoList i cs cache1

/-- `dfsMemo` over the child list, threading the cache left to right and
stopping at the first non-absent result. -/
def dfsMemoList (i : Nat) : List Node → Cache → Option Node × Cache
  | [], cache => (none, cache)
  | c :: cs, cache =>
    match dfsMemo i c cache with
    | (some r, cache1) => (some r, cache1)
    | (none, cache1) => dfsMemoList i cs cache1
end

/-- The child pre-warming loop of `get` (GameTree.js lines 61-63):
`for (let child of node.children) this._nodeCache[child.id] = child`. -/
def warmChildren (n : Node) (cache : Cache) : Cache :=
  n.children.foldl (fun acc c => (c.id, some c) :: acc) cache

/-- Body of `get` after alias resolution (GameTree.js lines 38-65):
consult the cache, fall back to the memoizing search, record the
known-absent sentinel on a miss, pre-warm the children on a hit. -/
def getAux (root : Node) (cache : Cache) (i : Nat) : Option Node × Cache :=
  let hit :=
    match assocFind cache i with
    | some v => (v, cache)
    | none => dfsMemo i root cache
  match hit with
  | (none, cache1) => (none, (i, none) :: cache1)
  | (some n, cache1) => (some n, warmChildren n cache1)

/-- `get(id)` with the memoization cache threaded explicitly
(GameTree.js lines 33-66).  A cyclic alias chain, on which the
JavaScript recursion diverges (caller error, unhandled by the source),
yields `none` with the cache untouched. -/
def getC (t : GameTree) (cache : Cache) : Option Nat → Option Node × Cache
  | none => (none, cache)
  | some i =>
    match resolveId t i with
    | none => (none, cache)
    | some r => getAux t.root cache r

/-- A cache is valid for a tree when every entry it can answer with
agrees with the pure depth-first search from the root. -/
def CacheValid (t : GameTree) (cache : Cache) : Prop :=
  ∀ i v, assocFind cache i = some v → v = findNode i t.root

/-! ## Navigation -/

/-- The `currents` mapping: node id → selected child id. -/
abbrev Currents := List (Nat × Nat)

/-- Lookup in a `currents` mapping (`currents[node.id] != null`). -/
def lookupCurr (c : Currents) (i : Nat) : Option Nat := assocFind c i

/-- The `nextId` selection of `navigate` (GameTree.js lines 104-106):
`currents[node.id]` if present, else the first child's id, else absent. -/
def nextIdOf (c : Currents) (n : Node) : Option Nat :=
  match lookupCurr c n.id with
  | some j => some j
  | none =>
    match n.children with
    | [] => none
    | ch :: _ => some ch.id

/-- Recursion core of `navigate`, structurally recursive on the extra
argument `fuel`, which callers instantiate with `|step|`: the source
recursion moves `step` one unit toward `0` per call, so `|step|` is
exactly the number of recursive calls and the `fuel = 0, step ≠ 0`
branch is unreachable.  `navigate_unfold` below recovers the source's
recursion equation verbatim. -/
def navGo (t : GameTree) (c : Currents) : Nat → Option Nat → Int → Option Node
  | fuel, oid, step =>
    match t.get oid with
    | none => none
    | some n =>
      if step = 0 then some n
      else
        match fuel with
        | 0 => none
        | fuel + 1 =>
          if step < 0 then navGo t c fuel n.parentId (step + 1)
          else
            match nextIdOf c n with
            | none => none
            | some j => navGo t c fuel (some j) (step - 1)

/-- `navigate(id, step, currents)` (GameTree.js lines 97-110).  In the
source the upward recursive call passes no `currents` argument at all;
since `currents` is never consulted while `step ≤ 0` (the theorem for
claim C10 proves this), the embedding passes the same mapping along. -/
def navigate (t : GameTree) (oid : Option Nat) (step : Int) (c : Currents) :
    Option Node :=
  navGo t c step.natAbs oid step

/-- The defining equation of `navigate`, exactly as the source recurses
(GameTree.js lines 97-110). -/
theorem navigate_unfold (t : GameTree) (oid : Option Nat) (step : Int)
    (c : Currents) :
    navigate t oid step c =
      match t.get oid with
      | none => none
      | some n =>
        if step = 0 then some n
        else if step < 0 then navigate t n.parentId (step + 1) c
        else
          match nextIdOf c n with
          | none => none
          | some j => navigate t (some j) (step - 1) c := by
  unfold navigate
  rw [navGo]
  cases hg : t.get oid with
  | none => rfl
  | some n =>
    by_cases h0 : step = 0
    · simp [h0]
    · have h1 : step.natAbs = (step.natAbs - 1) + 1 := by omega
      rw [h1]
      simp only [if_neg h0]
      by_cases hneg : step < 0
      · have : (step + 1).natAbs = step.natAbs - 1 := by omega
        simp [hneg, this]
      · have : (step - 1).natAbs = step.natAbs - 1 := by omega
        simp [hneg, this]

/-- One downward step along the line selected by `currents`: the node
that `navigate(n.id, 1, currents)` reaches from a node `n` the tree
resolves. -/
def stepDown (t : GameTree) (c : Currents) (n : Node) : Option Node :=
  match nextIdOf c n with
  | none => none
  | some j => t.get (some j)

/-- `k`-fold iteration of an `Option Node` transformer (spec side, used
to state that positive `navigate` steps compose single steps). -/
def iterOpt (f : Option Node → Option Node) : Nat → Option Node → Option Node
  | 0, x => x
  | k + 1, x => iterOpt f k (f x)

/-! ## Sequences -/

/-- `getSequence(id)` (GameTree.js lines 68-75) with fuel: yield the
resolved node, stop unless it has exactly one child, else continue from
that only child's id.  `none` means the fuel ran out. -/
def getSequenceF (t : GameTree) : Nat → Option Nat → Option (List Node)
  | 0, _ => none
  | fuel + 1, oid =>
    match t.get oid with
    | none => some []
    | some n =>
      match n.children with
      | [c] => (getSequenceF t fuel (some c.id)).map (n :: ·)
      | _ => some [n]

/-- The single-child chain from a node (spec side): the node itself,
followed by the chain of its only child as long as there is exactly one
child. -/
def seqSpec : Node → List Node
  | .mk i d p [] => [.mk i d p []]
  | .mk i d p [c] => .mk i d p [c] :: seqSpec c
  | .mk i d p (c :: c2 :: cs) => [.mk i d p (c :: c2 :: cs)]

/-! ## Levels and sections -/

/-- `getLevel(id)` (GameTree.js lines 163-170) with fuel.  Result
`none` = fuel ran out (the JavaScript recursion along a malformed parent
chain diverges); `some none` = JavaScript `null` (id not found);
`some (some l)` = level `l`.  When the recursive call returns `null` the
source computes `null + 1`, which JavaScript coerces to `1`: hence the
`Option.getD 0`. -/
def getLevelF (t : GameTree) : Nat → Option Nat → Option (Option Nat)
  | 0, _ => none
  | fuel + 1, oid =>
    if oid = some t.root.id then some (some 0)
    else
      match t.get oid with
      | none => some none
      | some n => (getLevelF t fuel n.parentId).map (fun r => some (r.getD 0 + 1))

/-- `getSection` recursion re-indexed over the natural number `level`
(the source only ever reaches this once `level ≥ 0`). -/
def getSectionN (t : GameTree) : Nat → List Node
  | 0 => [t.root]
  | l + 1 => ((getSectionN t l).map Node.children).flatten

/-- `getSection(level)` (GameTree.js lines 172-182): empty below zero,
the root alone at zero, else the concatenated children of the section
one level up. -/
def getSection (t : GameTree) (level : Int) : List Node :=
  if level < 0 then [] else getSectionN t level.toNat

/-- JavaScript `section[index]` for a possibly negative index:
`undefined` (here `none`) outside the bounds. -/
def listGetI (l : List Node) (i : Int) : Option Node :=
  if i < 0 then none else l.get? i.toNat

deriving instance DecidableEq for Except

/-! ## Horizontal and vertical walks -/

/-- The inner loop of `listNodesHorizontally` (GameTree.js lines
132-135): yield `section[index]` and move `index` by `step` while the
index is in bounds; also return the final index.  The fuel out-value is
`none`; with `step = ±1` (enforced before the loop is ever run) fuel
`section.length + 1` always suffices, since each iteration moves the
index by one inside the bounds. -/
def innerWalk (step : Int) : Nat → List Node → Int → Option (List Node × Int)
  | 0, _, _ => none
  | fuel + 1, sec, idx =>
    if 0 ≤ idx ∧ idx < (sec.length : Int) then
      match listGetI sec idx with
      | none => none
      | some n => (innerWalk step fuel sec (idx + step)).map
          (fun r => (n :: r.1, r.2))
    else some ([], idx)

/-- The outer loop of `listNodesHorizontally` (GameTree.js lines
131-140), with fuel for the outer iterations.  `level` is `Option Int`
because the JavaScript variable can hold `null` (unknown start id), in
which case `getSection(null)` yields nothing (`null < 0` and
`null === 0` are both false and `null - 1` is `-1`) and the loop guard
`section[index] != null` fails at once; inside the loop `level` is an
actual number, and `level + step` coerces a (then unreachable) `null` to
`0`, hence the `Option.getD 0`. -/
def horizLoop (t : GameTree) (step : Int) :
    Nat → List Node → Int → Option Int → Option (List Node)
  | fuel, sec, idx, lvl =>
    match listGetI sec idx with
    | none => some []
    | some _ =>
      match fuel with
      | 0 => none
      | fuel + 1 =>
        match innerWalk step (sec.length + 1) sec idx with
        | none => none
        | some (ys, _) =>
          let lvl1 : Int := lvl.getD 0 + step
          let sec1 : List Node :=
            if step > 0 then (sec.map Node.children).flatten
            else getSection t lvl1
          let idx1 : Int := if step > 0 then 0 else (sec1.length : Int) - 1
          (horizLoop t step fuel sec1 idx1 (some lvl1)).map (ys ++ ·)

/-- `listNodesHorizontally(startId, step)` (GameTree.js lines 124-141):
a hard `Error` (`Except.error`) unless `step` is `1` or `-1`, then the
level/section walk.  `Except.ok none` = fuel ran out. -/
def listNodesHorizontallyF (t : GameTree) (fuel : Nat) (startId : Option Nat)
    (step : Int) : Except Unit (Option (List Node)) :=
  if step.natAbs ≠ 1 then .error ()
  else
    match getLevelF t fuel startId with
    | none => .ok none
    | some lvl0 =>
      let lvl : Option Int := lvl0.map (fun l => (l : Int))
      let sec : List Node :=
        match lvl with
        | some l => getSection t l
        | none => getSection t (-1)
      let idx : Int :=
        match sec.findIdx? (fun n => startId = some n.id) with
        | none => -1
        | some k => (k : Int)
      .ok (horizLoop t step fuel sec idx lvl)

/-- The loop of `listNodesVertically` (GameTree.js lines 146-152):
yield the current node, then move to `navigate(node.id, step, currents)`
until absent.  `none` = fuel ran out (with an adversarial `currents` or
a malformed parent chain the JavaScript loop diverges). -/
def vertLoopF (t : GameTree) (c : Currents) (step : Int) :
    Nat → Option Node → Option (List Node)
  | _, none => some []
  | 0, some _ => none
  | fuel + 1, some n =>
    (vertLoopF t c step fuel (navigate t (some n.id) step c)).map (n :: ·)

/-- `listNodesVertically(startId, step, currents)` (GameTree.js lines
143-153): a hard `Error` unless `step` is `1` or `-1`. -/
def listNodesVerticallyF (t : GameTree) (fuel : Nat) (startId : Option Nat)
    (step : Int) (c : Currents) : Except Unit (Option (List Node)) :=
  if step.natAbs ≠ 1 then .error ()
  else .ok (vertLoopF t c step fuel (t.get startId))

/-- `listCurrentNodes(currents)` (GameTree.js lines 155-157). -/
def listCurrentNodesF (t : GameTree) (fuel : Nat) (c : Currents) :
    Except Unit (Option (List Node)) :=
  listNodesVerticallyF t fuel (some t.root.id) 1 c

/-- `listMainNodes()` (GameTree.js lines 159-161). -/
def listMainNodesF (t : GameTree) (fuel : Nat) :
    Except Unit (Option (List Node)) :=
  listCurrentNodesF t fuel []

/-- The main line of a subtree (spec side): the path following each
node's first (index-0) child. -/
def mainPath : Node → List Node
  | .mk i d p [] => [.mk i d p []]
  | .mk i d p (c :: cs) => .mk i d p (c :: cs) :: mainPath c

/-! ## Line membership -/

/-- `onCurrentLine(id, currents)` (GameTree.js lines 236-247) with fuel
(the recursion climbs the parent chain).  `none` = fuel ran out;
`some (Except.error ())` = a thrown `TypeError`: the source destructures
`let {parentId} = node` without checking `node` for `null`, so an id
that does not resolve crashes, as does `this.get(parentId).children[0]`
when the parent id does not resolve.  Otherwise, with `A` =
`node.id === currents[parentId]`, `B` = `currents[parentId] == null`,
`C` = `get(parentId).children[0] === node`, the source returns
`parentId == null || (A || B && C) && onCurrentLine(parentId)`. -/
def onCurrentLineF (t : GameTree) : Nat → Option Nat → Currents →
    Option (Except Unit Bool)
  | 0, _, _ => none
  | fuel + 1, oid, c =>
    match t.get oid with
    | none => some (.error ())
    | some n =>
      match n.parentId with
      | none => some (.ok true)
      | some pid =>
        if lookupCurr c pid = some n.id then onCurrentLineF t fuel (some pid) c
        else if lookupCurr c pid = none then
          match t.get (some pid) with
          | none => some (.error ())
          | some par =>
            if par.children.head? = some n then
              onCurrentLineF t fuel (some pid) c
            else some (.ok false)
        else some (.ok false)

/-- `onMainLine(id)` (GameTree.js lines 249-251). -/
def onMainLineF (t : GameTree) (fuel : Nat) (oid : Option Nat) :
    Option (Except Unit Bool) :=
  onCurrentLineF t fuel oid []

/-! ## Structure hash -/

/-- `2^32`: JavaScript bitwise operations reduce their operands to
32 bits. -/
def M32 : Nat := 4294967296

/-- One character step of the string-hash closure (GameTree.js line
217): `result = (result * 33) ^ charCode`.  The running value is kept as
its unsigned 32-bit representative; multiplication by 33 followed by
`ToInt32` is multiplication modulo `2^32` on representatives (the
intermediate product stays below `2^53`, so no float rounding occurs). -/
def hashStep (h c : Nat) : Nat := (h * 33 % M32) ^^^ c

/-- Hash a string, given as its list of UTF-16 code units. -/
def hashStr (h : Nat) (s : List Nat) : Nat := s.foldl hashStep h

/-- Code units of `JSON.stringify(id)` for a numeric id: its decimal
digits. -/
def idCodes (i : Nat) : List Nat := (Nat.repr i).toList.map Char.toNat

mutual
/-- The recursive hasher `inner` (GameTree.js lines 224-228): hash
`'[' + JSON.stringify(node.id) + ','` (code units 91, digits, 44), then
the children in order, then `']'` (code unit 93), threading the rolling
hash. -/
def hashNode : Node → Nat → Nat
  | .mk i _ _ cs, h => hashStr (hashNodeList cs (hashStr h (91 :: idCodes i ++ [44]))) [93]

/-- `hashNode` folded over a child list. -/
def hashNodeList : List Node → Nat → Nat
  | [], h => h
  | c :: cs, h => hashNodeList cs (hashNode c h)
end

/-- `getStructureHash()` (GameTree.js lines 207-234) with the
`_structureHashCache` made explicit: return the cached value if present,
else hash from seed 5381 and fill the cache.  The JavaScript
`(hash >>> 0) + ''` renders the unsigned 32-bit value as a decimal
string; the hash is kept as that unsigned representative (below `2^32`
throughout), of which the rendered string is an injective image. -/
def getStructureHashR (t : GameTree) : Nat × GameTree :=
  match t.structureHashCache with
  | some v => (v, t)
  | none =>
    let v := hashNode t.root 5381
    (v, { t with structureHashCache := some v })

/-- The id-labelled shape of a tree, forgetting payloads and parent
links (spec side, for the hash payload-independence claim). -/
inductive IdTree where
  | mk : Nat → List IdTree → IdTree

mutual
/-- Erase everything the structure hash ignores: payloads and parent
ids. -/
def eraseData : Node → IdTree
  | .mk i _ _ cs => .mk i (eraseDataList cs)

/-- `eraseData` over a child list. -/
def eraseDataList : List Node → List IdTree
  | [] => []
  | c :: cs => eraseData c :: eraseDataList cs
end

/-! ## Mutation -/

/-- Modelled from the spec: the builder ("Draft") consumed by `mutate`
lives in `src/Draft.js`, which is not part of the sources provided; per
§6 of the spec it exposes, after the edit callback has run, a finalized
`root`, a `passOnNodeCache` flag, and the possibly updated alias table
and derived caches.  A `DraftResult` is that finalized outcome; the
edit callback itself is abstracted into it. -/
structure DraftResult where
  root : Node
  passOnNodeCache : Bool
  nodeCache : Cache
  idAliases : List (Nat × Nat)
  structureHashCache : Option Nat
  heightCache : Option Nat
deriving DecidableEq

/-- `mutate(mutator)` (GameTree.js lines 77-95), with the callback's
effect on the draft abstracted as a `DraftResult`: if the builder's
resulting root is (identity-)equal to the current root, return the tree
itself; otherwise build a new instance around the new root, carrying the
node cache over only when `passOnNodeCache` is set (a fresh instance
starts with an empty cache) and inheriting alias table and derived
caches from the draft. -/
def mutate (t : GameTree) (draft : DraftResult) : GameTree :=
  if draft.root = t.root then t
  else
    { root := draft.root,
      idAliases := draft.idAliases,
      nodeCache := if draft.passOnNodeCache then draft.nodeCache else [],
      heightCache := draft.heightCache,
      structureHashCache := draft.structureHashCache }

/-! ## Well-formedness and paths -/

mutual
/-- The parent-link invariant of the data model (spec §3): every child
records its parent's id. -/
def childrenOkB : Node → Bool
  | .mk i _ _ cs => childrenOkListB i cs

/-- `childrenOkB` over a child list with the parent's id. -/
def childrenOkListB : Nat → List Node → Bool
  | _, [] => true
  | pid, c :: cs => (c.parentId == some pid) && childrenOkB c && childrenOkListB pid cs
end

/-- Well-formedness of a tree instance, packaging the invariants of
spec §3: node ids are unique, no live node id is shadowed by an alias
entry, parent links match the structure, and the root has no parent. -/
def WFT (t : GameTree) : Prop :=
  (idsOf t.root).Nodup ∧
  (∀ i ∈ idsOf t.root, lookupAlias t.idAliases i = none) ∧
  childrenOkB t.root = true ∧
  t.root.parentId = none

instance (t : GameTree) : Decidable (WFT t) := by
  unfold WFT; infer_instance

/-- Root-to-target paths: `IsPath r p m` says `p` is the list of nodes
from `r` down to `m`, each consecutive pair linked by child membership. -/
inductive IsPath : Node → List Node → Node → Prop
  | single (n : Node) : IsPath n [n] n
  | cons {n c m : Node} {p : List Node} :
      c ∈ n.children → IsPath c p m → IsPath n (n :: p) m

-- Concrete trees: the scenario of spec §8 (root R with children A, B;
-- A has child C) and variants used in checks below.
section SanityChecks

/-- Extra concrete instances used by the checks and theorems below. -/
def treeAliasRoot : GameTree := { root := Node.mk 0 4 none [Node.mk 1 5 (some 0) [Node.mk 3 7 (some 1) []], Node.mk 2 6 (some 0) []], idAliases := [(9, 0)] }

/-- A payload-variant of the scenario tree: same ids and shape, all
`data` fields changed. -/
def tree0b : GameTree := { root := Node.mk 0 9 none [Node.mk 1 8 (some 0) [Node.mk 3 6 (some 1) []], Node.mk 2 5 (some 0) []] }

/-- A no-op draft outcome over the scenario tree. -/
def draft0 : DraftResult :=
  { root := Node.mk 0 4 none [Node.mk 1 5 (some 0) [Node.mk 3 7 (some 1) []], Node.mk 2 6 (some 0) []],
    passOnNodeCache := false, nodeCache := [], idAliases := [],
    structureHashCache := none, heightCache := none }

def nodeC0 : Node := .mk 3 7 (some 1) []
def nodeA0 : Node := .mk 1 5 (some 0) [nodeC0]
def nodeB0 : Node := .mk 2 6 (some 0) []
def rootR0 : Node := .mk 0 4 none [nodeA0, nodeB0]
def tree0 : GameTree := { root := rootR0 }

example : tree0.get (some 3) = some nodeC0 := by decide
example : tree0.get none = none := by decide
example : tree0.get (some 9) = none := by decide
example : GameTree.get { root := rootR0, idAliases := [(9, 3)] } (some 9) = some nodeC0 := by
  decide

-- Scenario checks from spec §8.
example : WFT tree0 := by decide
example : getSequenceF tree0 5 (some 0) = some [rootR0] := by decide
example : getSequenceF tree0 5 (some 1) = some [nodeA0, nodeC0] := by decide
example : getLevelF tree0 5 (some 3) = some (some 2) := by decide
example : navigate tree0 (some 3) (-2) [] = some rootR0 := by decide
example : listMainNodesF tree0 5 = .ok (some [rootR0, nodeA0, nodeC0]) := by decide
example : mainPath rootR0 = [rootR0, nodeA0, nodeC0] := by decide
example : onCurrentLineF tree0 5 (some 2) [] = some (.ok false) := by decide
example : onCurrentLineF tree0 5 (some 3) [] = some (.ok true) := by decide
example : listNodesHorizontallyF tree0 9 (some 1) 2 = .error () := by decide
example : listNodesHorizontallyF tree0 9 (some 1) 1 = .ok (some [nodeA0, nodeB0, nodeC0]) := by
  decide
example : listNodesHorizontallyF tree0 9 (some 3) (-1) =
    .ok (some [nodeC0, nodeB0, nodeA0, rootR0]) := by decide
example : listNodesHorizontallyF tree0 9 (some 7) 1 = .ok (some []) := by decide
-- `onCurrentLine` on an unknown id throws (destructuring `null`).
example : onCurrentLineF tree0 5 (some 9) [] = some (.error ()) := by decide
-- `getLevel` of an alias of the root: JavaScript `null + 1 = 1`.
example : getLevelF { root := rootR0, idAliases := [(9, 0)] } 5 (some 9) =
    some (some 1) := by decide
-- `onMainLine` is true of an alias key, which `listMainNodes` never yields.
example : onCurrentLineF { root := rootR0, idAliases := [(9, 0)] } 5 (some 9) [] =
    some (.ok true) := by decide
example : navigate tree0 (some 0) 1 [(0, 2)] = some nodeB0 := by decide
example : getC tree0 [] (some 3) =
    (some nodeC0, warmChildren nodeC0 (dfsMemo 3 rootR0 []).2) := by decide
example : (getStructureHashR tree0).1 =
    (getStructureHashR { root := .mk 0 9 none [.mk 1 8 (some 0) [.mk 3 7 (some 1) []],
      .mk 2 6 (some 0) []] }).1 := by decide
example : (getStructureHashR tree0).1 ≠
    (getStructureHashR { root := .mk 0 4 none [.mk 1 5 (some 0) []] }).1 := by decide

end SanityChecks

/-! ## Infrastructure: preorder node lists -/

theorem mem_nodesOfList {x : Node} {cs : List Node} :
    x ∈ nodesOfList cs ↔ ∃ c ∈ cs, x ∈ nodesOf c := by
  induction cs with
  | nil => simp [nodesOfList]
  | cons c cs ih => simp [nodesOfList, ih]

theorem self_mem_nodesOf (n : Node) : n ∈ nodesOf n := by
  cases n with
  | mk i d p cs => rw [nodesOf]; exact List.mem_cons_self _ _

theorem children_mem_nodesOf {n c : Node} (hc : c ∈ n.children) :
    c ∈ nodesOf n := by
  cases n with
  | mk i d p cs =>
    rw [nodesOf]
    exact List.mem_cons_of_mem _ (mem_nodesOfList.mpr ⟨c, hc, self_mem_nodesOf c⟩)

theorem sizeOf_le_of_mem_nodesOf : ∀ {n x : Node}, x ∈ nodesOf n →
    sizeOf x ≤ sizeOf n
  | .mk i d p cs, x, hx => by
    rw [nodesOf] at hx
    rcases List.mem_cons.mp hx with h | h
    · subst h; exact le_refl _
    · obtain ⟨c, hc, hxc⟩ := mem_nodesOfList.mp h
      have h1 : sizeOf x ≤ sizeOf c := sizeOf_le_of_mem_nodesOf hxc
      have h2 : sizeOf c < sizeOf cs := List.sizeOf_lt_of_mem hc
      have h3 : sizeOf cs < sizeOf (Node.mk i d p cs) := by simp
      omega
termination_by n => sizeOf n
decreasing_by
  have := List.sizeOf_lt_of_mem hc
  simp; omega

theorem sizeOf_lt_of_mem_children {n c : Node} (hc : c ∈ n.children) :
    sizeOf c < sizeOf n := by
  cases n with
  | mk i d p cs =>
    have h2 : sizeOf c < sizeOf cs := List.sizeOf_lt_of_mem hc
    have h3 : sizeOf cs < sizeOf (Node.mk i d p cs) := by simp
    omega

theorem mem_nodesOf_trans : ∀ {r q x : Node}, x ∈ nodesOf q → q ∈ nodesOf r →
    x ∈ nodesOf r
  | .mk i d p cs, q, x, hx, hq => by
    rw [nodesOf] at hq ⊢
    rcases List.mem_cons.mp hq with h | h
    · subst h; rw [← nodesOf]; exact hx
    · obtain ⟨c, hc, hqc⟩ := mem_nodesOfList.mp h
      exact List.mem_cons_of_mem _
        (mem_nodesOfList.mpr ⟨c, hc, mem_nodesOf_trans hx hqc⟩)
termination_by r => sizeOf r
decreasing_by
  have := List.sizeOf_lt_of_mem hc
  simp; omega

theorem nodesOf_ne_nil (n : Node) : nodesOf n ≠ [] := by
  cases n with
  | mk i d p cs => rw [nodesOf]; exact List.cons_ne_nil _ _

theorem countNodes_pos (n : Node) : 1 ≤ countNodes n := by
  have := nodesOf_ne_nil n
  unfold countNodes
  cases h : nodesOf n with
  | nil => exact absurd h this
  | cons a l => simp

/-! ## Infrastructure: unique ids -/

/-- Two members of a subtree with Nodup ids and the same id are the same
node. -/
theorem node_id_inj {r m m' : Node} (hd : (idsOf r).Nodup)
    (hm : m ∈ nodesOf r) (hm' : m' ∈ nodesOf r) (hid : m.id = m'.id) :
    m = m' :=
  List.inj_on_of_nodup_map hd hm hm' hid

theorem idsOf_sublist_of_mem_list {c : Node} {cs : List Node} (hc : c ∈ cs) :
    List.Sublist ((nodesOf c).map Node.id) ((nodesOfList cs).map Node.id) := by
  induction cs with
  | nil => cases hc
  | cons a cs ih =>
    rw [nodesOfList, List.map_append]
    rcases List.mem_cons.mp hc with h | h
    · subst h; exact List.sublist_append_left _ _
    · exact (ih h).trans (List.sublist_append_right _ _)

theorem idsOf_nodup_of_mem {r c : Node} (hd : (idsOf r).Nodup)
    (hc : c ∈ r.children) : (idsOf c).Nodup := by
  cases r with
  | mk i d p cs =>
    unfold idsOf at hd ⊢
    rw [nodesOf, List.map_cons] at hd
    exact ((idsOf_sublist_of_mem_list hc).nodup (List.Nodup.of_cons hd))

/-- Distinct members of a child list have disjoint subtrees when the
combined id list is duplicate-free. -/
theorem nodesOfList_subtree_inj {cs : List Node}
    (hd : ((nodesOfList cs).map Node.id).Nodup) :
    ∀ {c1 c2 x : Node}, c1 ∈ cs → c2 ∈ cs → x ∈ nodesOf c1 →
      x ∈ nodesOf c2 → c1 = c2 := by
  induction cs with
  | nil => intro c1 c2 x h; cases h
  | cons c cs ih =>
    rw [nodesOfList, List.map_append] at hd
    rw [List.nodup_append] at hd
    obtain ⟨hd1, hd2, hdisj⟩ := hd
    intro c1 c2 x h1 h2 hx1 hx2
    rcases List.mem_cons.mp h1 with e1 | e1 <;>
      rcases List.mem_cons.mp h2 with e2 | e2
    · rw [e1, e2]
    · subst e1
      exfalso
      have hxm : x ∈ nodesOf c2 := hx2
      have hin1 : x.id ∈ (nodesOf c1).map Node.id := List.mem_map_of_mem _ hx1
      have hin2 : x.id ∈ (nodesOfList cs).map Node.id :=
        (idsOf_sublist_of_mem_list e2).subset (List.mem_map_of_mem _ hx2)
      exact hdisj hin1 hin2
    · subst e2
      exfalso
      have hin1 : x.id ∈ (nodesOf c2).map Node.id := List.mem_map_of_mem _ hx2
      have hin2 : x.id ∈ (nodesOfList cs).map Node.id :=
        (idsOf_sublist_of_mem_list e1).subset (List.mem_map_of_mem _ hx1)
      exact hdisj hin1 hin2
    · exact ih hd2 e1 e2 hx1 hx2

/-- In a tree with Nodup ids a node has at most one parent: two members
both holding `m` among their children are the same node. -/
theorem parent_unique : ∀ {r q q' m : Node}, (idsOf r).Nodup →
    q ∈ nodesOf r → q' ∈ nodesOf r → m ∈ q.children → m ∈ q'.children →
    q = q'
  | .mk i d p cs, q, q', m, hd, hq, hq', hmq, hmq' => by
    have hdl : ((nodesOfList cs).map Node.id).Nodup := by
      unfold idsOf at hd
      rw [nodesOf, List.map_cons] at hd
      exact List.Nodup.of_cons hd
    rw [nodesOf] at hq hq'
    rcases List.mem_cons.mp hq with e | e <;> rcases List.mem_cons.mp hq' with e' | e'
    · rw [e, e']
    · -- q is the root, q' lives in a child subtree c2, both have child m
      exfalso
      subst e
      obtain ⟨c2, hc2, hq'c2⟩ := mem_nodesOfList.mp e'
      have hmcs : m ∈ cs := hmq
      have hmc2 : m ∈ nodesOf c2 :=
        mem_nodesOf_trans (children_mem_nodesOf hmq') hq'c2
      have : m = c2 :=
        nodesOfList_subtree_inj hdl hmcs hc2 (self_mem_nodesOf m) hmc2
      subst this
      have h1 : sizeOf q' ≤ sizeOf m := sizeOf_le_of_mem_nodesOf hq'c2
      have h2 : sizeOf m < sizeOf q' := sizeOf_lt_of_mem_children hmq'
      omega
    · exfalso
      subst e'
      obtain ⟨c1, hc1, hqc1⟩ := mem_nodesOfList.mp e
      have hmcs : m ∈ cs := hmq'
      have hmc1 : m ∈ nodesOf c1 :=
        mem_nodesOf_trans (children_mem_nodesOf hmq) hqc1
      have : m = c1 :=
        nodesOfList_subtree_inj hdl hmcs hc1 (self_mem_nodesOf m) hmc1
      subst this
      have h1 : sizeOf q ≤ sizeOf m := sizeOf_le_of_mem_nodesOf hqc1
      have h2 : sizeOf m < sizeOf q := sizeOf_lt_of_mem_children hmq
      omega
    · obtain ⟨c1, hc1, hqc1⟩ := mem_nodesOfList.mp e
      obtain ⟨c2, hc2, hq'c2⟩ := mem_nodesOfList.mp e'
      have hmc1 : m ∈ nodesOf c1 :=
        mem_nodesOf_trans (children_mem_nodesOf hmq) hqc1
      have hmc2 : m ∈ nodesOf c2 :=
        mem_nodesOf_trans (children_mem_nodesOf hmq') hq'c2
      have hcc : c1 = c2 := nodesOfList_subtree_inj hdl hc1 hc2 hmc1 hmc2
      subst hcc
      have hdc1 : ((nodesOf c1).map Node.id).Nodup :=
        (idsOf_sublist_of_mem_list hc1).nodup hdl
      exact parent_unique hdc1 hqc1 hq'c2 hmq hmq'
termination_by r => sizeOf r
decreasing_by
  have := List.sizeOf_lt_of_mem hc1
  simp; omega

/-! ## Infrastructure: `findNode` and `get` -/

mutual
/-- A found node is a member of the subtree and carries the searched
id. -/
theorem findNode_sound : ∀ {n x : Node} {i : Nat}, findNode i n = some x →
    x ∈ nodesOf n ∧ x.id = i
  | .mk j d p cs, x, i, h => by
    rw [findNode] at h
    by_cases hj : j = i
    · rw [if_pos hj] at h
      injection h with h
      subst h
      exact ⟨self_mem_nodesOf _, hj⟩
    · rw [if_neg hj] at h
      obtain ⟨c, hc, hx, hxi⟩ := findNodeList_sound h
      refine ⟨?_, hxi⟩
      rw [nodesOf]
      exact List.mem_cons_of_mem _ (mem_nodesOfList.mpr ⟨c, hc, hx⟩)

/-- `findNodeList` soundness: the result lives in one of the listed
subtrees and carries the searched id. -/
theorem findNodeList_sound : ∀ {cs : List Node} {x : Node} {i : Nat},
    findNodeList i cs = some x → ∃ c ∈ cs, x ∈ nodesOf c ∧ x.id = i
  | [], x, i, h => by rw [findNodeList] at h; cases h
  | c :: cs, x, i, h => by
    rw [findNodeList] at h
    cases hc : findNode i c with
    | some r =>
      rw [hc] at h
      injection h with h
      subst h
      obtain ⟨hm, hi⟩ := findNode_sound hc
      exact ⟨c, List.mem_cons_self _ _, hm, hi⟩
    | none =>
      rw [hc] at h
      obtain ⟨c', hc', hx, hxi⟩ := findNodeList_sound h
      exact ⟨c', List.mem_cons_of_mem _ hc', hx, hxi⟩
end

mutual
/-- `findNode` completeness: a member id is always found. -/
theorem findNode_isSome : ∀ {n m : Node}, m ∈ nodesOf n →
    (findNode m.id n).isSome = true
  | .mk j d p cs, m, hm => by
    rw [findNode]
    by_cases hj : j = m.id
    · rw [if_pos hj]; rfl
    · rw [if_neg hj]
      rw [nodesOf] at hm
      rcases List.mem_cons.mp hm with e | e
      · subst e; exact absurd rfl hj
      · obtain ⟨c, hc, hmc⟩ := mem_nodesOfList.mp e
        exact findNodeList_isSome hc hmc

/-- `findNodeList` completeness. -/
theorem findNodeList_isSome : ∀ {cs : List Node} {c m : Node}, c ∈ cs →
    m ∈ nodesOf c → (findNodeList m.id cs).isSome = true
  | [], c, m, hc, _ => by cases hc
  | a :: cs, c, m, hc, hm => by
    rw [findNodeList]
    cases ha : findNode m.id a with
    | some r => rfl
    | none =>
      rcases List.mem_cons.mp hc with e | e
      · subst e
        have := findNode_isSome hm
        rw [ha] at this
        cases this
      · exact findNodeList_isSome e hm
end

/-- Under Nodup ids, `findNode` retrieves exactly the member node with
the searched id. -/
theorem findNode_of_mem {r m : Node} (hd : (idsOf r).Nodup)
    (hm : m ∈ nodesOf r) : findNode m.id r = some m := by
  have hs := findNode_isSome hm
  cases h : findNode m.id r with
  | none => rw [h] at hs; cases hs
  | some x =>
    obtain ⟨hx, hxi⟩ := findNode_sound h
    rw [node_id_inj hd hx hm hxi]

/-- A `findNode` miss means no member carries the id. -/
theorem findNode_none {r : Node} {i : Nat} (h : findNode i r = none) :
    ∀ m ∈ nodesOf r, m.id ≠ i := by
  intro m hm hi
  subst hi
  have := findNode_isSome hm
  rw [h] at this
  cases this

/-- A node id of a well-formed tree is not an alias key, so it resolves
to itself. -/
theorem resolveId_of_node_id {t : GameTree} {m : Node} (hwf : WFT t)
    (hm : m ∈ nodesOf t.root) : resolveId t m.id = some m.id := by
  obtain ⟨_, hal, _, _⟩ := hwf
  have : lookupAlias t.idAliases m.id = none :=
    hal _ (List.mem_map_of_mem _ hm)
  unfold resolveId
  rw [resolveIdF, this]

/-- `get` retrieves any member of a well-formed tree by its own id. -/
theorem get_of_mem {t : GameTree} {m : Node} (hwf : WFT t)
    (hm : m ∈ nodesOf t.root) : t.get (some m.id) = some m := by
  simp only [GameTree.get, resolveId_of_node_id hwf hm]
  exact findNode_of_mem hwf.1 hm

/-- Whatever `get` returns is a member node whose id is the
alias-resolved query id. -/
theorem get_sound {t : GameTree} {i : Nat} {n : Node}
    (h : t.get (some i) = some n) :
    n ∈ nodesOf t.root ∧ resolveId t i = some n.id := by
  simp only [GameTree.get] at h
  cases hr : resolveId t i with
  | none => rw [hr] at h; cases h
  | some r =>
    rw [hr] at h
    obtain ⟨hm, hid⟩ := findNode_sound h
    exact ⟨hm, by rw [hid]⟩

/-! ## Infrastructure: paths -/

theorem IsPath.ne_nil {r m : Node} {p : List Node} (h : IsPath r p m) :
    p ≠ [] := by
  cases h <;> exact List.cons_ne_nil _ _

theorem IsPath.target_mem {r m : Node} {p : List Node} (h : IsPath r p m) :
    m ∈ nodesOf r := by
  induction h with
  | single n => exact self_mem_nodesOf n
  | cons hc _ ih => exact mem_nodesOf_trans ih (children_mem_nodesOf hc)

theorem IsPath.mem {r m : Node} {p : List Node} (h : IsPath r p m) :
    ∀ x ∈ p, x ∈ nodesOf r := by
  induction h with
  | single n =>
    intro x hx
    rw [List.mem_singleton] at hx
    subst hx
    exact self_mem_nodesOf _
  | cons hc _ ih =>
    intro x hx
    rcases List.mem_cons.mp hx with e | e
    · subst e; exact self_mem_nodesOf _
    · exact mem_nodesOf_trans (ih x e) (children_mem_nodesOf hc)

/-- Every path ends in its target: `p = p' ++ [m]`, and either the path
is the trivial one at the root or the target hangs off the previous
node. -/
theorem IsPath.snoc_cases {r m : Node} {p : List Node} (h : IsPath r p m) :
    (p = [r] ∧ m = r) ∨
      ∃ p' m', IsPath r p' m' ∧ m ∈ m'.children ∧ p = p' ++ [m] := by
  induction h with
  | single n => exact Or.inl ⟨rfl, rfl⟩
  | cons hc hp ih =>
    rename_i n c m' p'
    rcases ih with ⟨hp1, hm1⟩ | ⟨q, m2, hq, hmem, hpe⟩
    · subst hp1; subst hm1
      exact Or.inr ⟨[n], n, IsPath.single n, hc, rfl⟩
    · subst hpe
      exact Or.inr ⟨n :: q, m2, IsPath.cons hc hq, hmem, rfl⟩

theorem IsPath.reverse_head {r m : Node} {p : List Node} (h : IsPath r p m) :
    p.reverse.get? 0 = some m := by
  rcases h.snoc_cases with ⟨hp, hm⟩ | ⟨p', m', _, _, hp⟩
  · subst hp; subst hm; rfl
  · subst hp
    rw [List.reverse_append]
    rfl

theorem IsPath.length_pos {r m : Node} {p : List Node} (h : IsPath r p m) :
    1 ≤ p.length := by
  cases h <;> simp

/-- A path to the root itself is trivial (the root cannot reappear
deeper without violating structural finiteness). -/
theorem IsPath.to_root {r : Node} {p : List Node} (h : IsPath r p r) :
    p = [r] := by
  rcases h.snoc_cases with ⟨hp, _⟩ | ⟨p', m', hq, hmem, hp⟩
  · exact hp
  · exfalso
    have h1 : sizeOf m' ≤ sizeOf r := sizeOf_le_of_mem_nodesOf hq.target_mem
    have h2 : sizeOf r < sizeOf m' := sizeOf_lt_of_mem_children hmem
    omega

/-- Under Nodup ids, every member has a path from the root.  (The
search `findNode` would trace it; only existence is needed.) -/
theorem exists_path : ∀ {r m : Node}, m ∈ nodesOf r → ∃ p, IsPath r p m
  | .mk i d p cs, m, hm => by
    rw [nodesOf] at hm
    rcases List.mem_cons.mp hm with e | e
    · subst e; exact ⟨_, IsPath.single _⟩
    · obtain ⟨c, hc, hmc⟩ := mem_nodesOfList.mp e
      obtain ⟨q, hq⟩ := exists_path hmc
      exact ⟨_, IsPath.cons hc hq⟩
termination_by r => sizeOf r
decreasing_by
  have := List.sizeOf_lt_of_mem hc
  simp; omega

theorem IsPath.length_le_count {r m : Node} {p : List Node}
    (h : IsPath r p m) : p.length ≤ countNodes r := by
  induction h with
  | single n => exact countNodes_pos n
  | cons hc hp ih =>
    rename_i n c m' p'
    have hsub : List.Sublist ((nodesOf c).map Node.id)
        ((nodesOfList n.children).map Node.id) := idsOf_sublist_of_mem_list hc
    have hlen : countNodes c ≤ (nodesOfList n.children).length := by
      have := hsub.length_le
      simpa [countNodes] using this
    have hcount : countNodes n = 1 + (nodesOfList n.children).length := by
      cases n with
      | mk i d pp cs =>
        simp [countNodes, nodesOf, Node.children, Nat.add_comm]
    simp only [List.length_cons]
    omega

theorem childrenOkListB_spec {pid : Nat} : ∀ {l : List Node},
    childrenOkListB pid l = true →
    ∀ x ∈ l, x.parentId = some pid ∧ childrenOkB x = true := by
  intro l
  induction l with
  | nil => intro _ x hx; cases hx
  | cons a l ih =>
    intro hh x hx
    rw [childrenOkListB] at hh
    simp only [Bool.and_eq_true, beq_iff_eq] at hh
    obtain ⟨⟨hpa, hca⟩, hl⟩ := hh
    rcases List.mem_cons.mp hx with e | e
    · subst e; exact ⟨hpa, hca⟩
    · exact ih hl x e

/-- The parent invariant descends to every member of the tree. -/
theorem childrenOkB_of_mem : ∀ {r q : Node}, childrenOkB r = true →
    q ∈ nodesOf r → childrenOkB q = true
  | .mk i d p cs, q, hok, hq => by
    rw [nodesOf] at hq
    rcases List.mem_cons.mp hq with e | e
    · subst e; exact hok
    · obtain ⟨c, hc, hqc⟩ := mem_nodesOfList.mp e
      rw [childrenOkB] at hok
      exact childrenOkB_of_mem (childrenOkListB_spec hok c hc).2 hqc
termination_by r => sizeOf r
decreasing_by
  have := List.sizeOf_lt_of_mem hc
  simp; omega

/-- The parent link: under the parent invariant every child of a member
node records that node's id. -/
theorem childrenOk_parentId {r q c : Node} (hok : childrenOkB r = true)
    (hq : q ∈ nodesOf r) (hc : c ∈ q.children) : c.parentId = some q.id := by
  have hq' : childrenOkB q = true := childrenOkB_of_mem hok hq
  cases q with
  | mk i d p cs =>
    rw [childrenOkB] at hq'
    exact (childrenOkListB_spec hq' c hc).1

/-! ## Infrastructure: the main path -/

theorem self_mem_mainPath (n : Node) : n ∈ mainPath n := by
  cases n with
  | mk i d p cs =>
    cases cs with
    | nil => rw [mainPath]; exact List.mem_cons_self _ _
    | cons c cs' => rw [mainPath]; exact List.mem_cons_self _ _

theorem countNodes_lt_of_mem_children {m c : Node} (hc : c ∈ m.children) :
    countNodes c < countNodes m := by
  cases m with
  | mk i d p cs =>
    have hsub : List.Sublist ((nodesOf c).map Node.id)
        ((nodesOfList cs).map Node.id) := idsOf_sublist_of_mem_list hc
    have := hsub.length_le
    simp only [List.length_map] at this
    simp only [countNodes, nodesOf, List.length_cons]
    omega

theorem mainPath_subset : ∀ {r x : Node}, x ∈ mainPath r → x ∈ nodesOf r
  | .mk i d p [], x, hx => by
    rw [mainPath] at hx
    rw [List.mem_singleton] at hx
    subst hx
    exact self_mem_nodesOf _
  | .mk i d p (c :: cs'), x, hx => by
    rw [mainPath] at hx
    rcases List.mem_cons.mp hx with e | e
    · subst e; exact self_mem_nodesOf _
    · have hc : c ∈ (Node.mk i d p (c :: cs')).children :=
        List.mem_cons_self _ _
      exact mem_nodesOf_trans (mainPath_subset e) (children_mem_nodesOf hc)
termination_by r => sizeOf r
decreasing_by
  simp; omega

theorem mainPath_extend : ∀ {r q x : Node}, q ∈ mainPath r →
    q.children.head? = some x → x ∈ mainPath r
  | .mk i d p [], q, x, hq, hx => by
    rw [mainPath] at hq
    rw [List.mem_singleton] at hq
    subst hq
    simp [Node.children] at hx
  | .mk i d p (c :: cs'), q, x, hq, hx => by
    rw [mainPath] at hq ⊢
    rcases List.mem_cons.mp hq with e | e
    · subst e
      simp only [Node.children, List.head?_cons, Option.some.injEq] at hx
      subst hx
      exact List.mem_cons_of_mem _ (self_mem_mainPath _)
    · exact List.mem_cons_of_mem _ (mainPath_extend e hx)
termination_by r => sizeOf r
decreasing_by
  simp; omega

theorem mainPath_pred : ∀ {r m : Node}, m ∈ mainPath r →
    m = r ∨ ∃ q, q ∈ mainPath r ∧ q.children.head? = some m
  | .mk i d p [], m, hm => by
    rw [mainPath] at hm
    rw [List.mem_singleton] at hm
    exact Or.inl hm
  | .mk i d p (c :: cs'), m, hm => by
    rw [mainPath] at hm
    rcases List.mem_cons.mp hm with e | e
    · exact Or.inl e
    · rcases mainPath_pred e with e1 | ⟨q, hq, hqx⟩
      · subst e1
        refine Or.inr ⟨.mk i d p (m :: cs'), ?_, ?_⟩
        · rw [mainPath]; exact List.mem_cons_self _ _
        · simp [Node.children]
      · refine Or.inr ⟨q, ?_, hqx⟩
        rw [mainPath]
        exact List.mem_cons_of_mem _ hq
termination_by r => sizeOf r
decreasing_by
  simp; omega

/-! ## Infrastructure: the main-line walk -/

/-- With empty `currents`, one downward `navigate` step from a member
node reaches exactly its first child. -/
theorem navigate_one_empty {t : GameTree} (hwf : WFT t) {m : Node}
    (hm : m ∈ nodesOf t.root) :
    navigate t (some m.id) 1 [] = m.children.head? := by
  rw [navigate_unfold, get_of_mem hwf hm]
  norm_num
  cases hcs : m.children with
  | nil => simp [nextIdOf, lookupCurr, assocFind, hcs]
  | cons c cs' =>
    have hcm : c ∈ m.children := by rw [hcs]; exact List.mem_cons_self _ _
    have hcmem : c ∈ nodesOf t.root :=
      mem_nodesOf_trans (children_mem_nodesOf hcm) hm
    simp only [nextIdOf, lookupCurr, assocFind, hcs]
    norm_num
    rw [navigate_unfold, get_of_mem hwf hcmem]
    norm_num

/-- The main-line vertical walk materializes `mainPath` when given
enough fuel. -/
theorem vertLoopF_mainPath {t : GameTree} (hwf : WFT t) :
    ∀ (f : Nat) (m : Node), m ∈ nodesOf t.root → countNodes m ≤ f →
      vertLoopF t [] 1 f (some m) = some (mainPath m) := by
  intro f
  induction f with
  | zero =>
    intro m hm hc
    have := countNodes_pos m
    omega
  | succ f ih =>
    intro m hm hc
    rw [vertLoopF, navigate_one_empty hwf hm]
    cases m with
    | mk i d p cs =>
      cases cs with
      | nil =>
        simp only [Node.children, List.head?_nil]
        rw [vertLoopF, mainPath]
        rfl
      | cons c cs' =>
        have hcm : c ∈ (Node.mk i d p (c :: cs')).children :=
          List.mem_cons_self _ _
        have hcmem : c ∈ nodesOf t.root :=
          mem_nodesOf_trans (children_mem_nodesOf hcm) hm
        have hlt : countNodes c < countNodes (Node.mk i d p (c :: cs')) :=
          countNodes_lt_of_mem_children hcm
        simp only [Node.children, List.head?_cons]
        rw [ih c hcmem (by omega), mainPath]
        rfl

/-- Unfolding `onCurrentLineF` at the root. -/
theorem onCurrentLineF_at_root {t : GameTree} {f : Nat} {i : Nat} {m : Node}
    (hget : t.get (some i) = some m) (hpar : m.parentId = none) :
    onCurrentLineF t (f + 1) (some i) [] = some (.ok true) := by
  rw [onCurrentLineF, hget]
  dsimp only
  rw [hpar]

/-- Unfolding `onCurrentLineF` at a non-root node with empty
`currents`. -/
theorem onCurrentLineF_step {t : GameTree} {f : Nat} {i pid : Nat}
    {m par : Node} (hget : t.get (some i) = some m)
    (hpar : m.parentId = some pid) (hpget : t.get (some pid) = some par) :
    onCurrentLineF t (f + 1) (some i) [] =
      if par.children.head? = some m then onCurrentLineF t f (some pid) []
      else some (.ok false) := by
  rw [onCurrentLineF, hget]
  dsimp only
  rw [hpar]
  dsimp only
  simp only [lookupCurr, assocFind]
  rw [if_neg (by simp)]
  simp only [if_true]
  rw [hpget]

/-- `onCurrentLine` with empty `currents` decides membership in the
main path, for any id the tree resolves. -/
theorem onCurrentLine_mainPath {t : GameTree} (hwf : WFT t) :
    ∀ (f : Nat) (p : List Node) (m : Node) (i : Nat), IsPath t.root p m →
      p.length ≤ f → t.get (some i) = some m →
      (onCurrentLineF t f (some i) [] = some (Except.ok true) ↔
        m ∈ mainPath t.root) := by
  intro f
  induction f with
  | zero =>
    intro p m i hp hlen
    have := hp.length_pos
    omega
  | succ f ih =>
    intro p m i hp hlen hget
    rcases hp.snoc_cases with ⟨hpe, hme⟩ | ⟨p', m', hp', hmem, hpe⟩
    · subst hme
      rw [onCurrentLineF_at_root hget hwf.2.2.2]
      constructor
      · intro _; exact self_mem_mainPath _
      · intro _; rfl
    · have hm'mem : m' ∈ nodesOf t.root := hp'.target_mem
      have hpar : m.parentId = some m'.id :=
        childrenOk_parentId hwf.2.2.1 hm'mem hmem
      have hmroot : m ≠ t.root := by
        intro e
        subst e
        have h2 := hp.to_root
        rw [hpe] at h2
        have h3 : p'.length + 1 = 1 := by
          have := congrArg List.length h2
          simpa using this
        have h4 := hp'.length_pos
        omega
      rw [onCurrentLineF_step hget hpar (get_of_mem hwf hm'mem)]
      have hlen' : p'.length ≤ f := by
        have := congrArg List.length hpe
        simp at this
        omega
      by_cases hhead : m'.children.head? = some m
      · rw [if_pos hhead]
        rw [ih p' m' m'.id hp' hlen' (get_of_mem hwf hm'mem)]
        constructor
        · intro hm'main
          exact mainPath_extend hm'main hhead
        · intro hmmain
          rcases mainPath_pred hmmain with e | ⟨q, hq, hqh⟩
          · exact absurd e hmroot
          · have hq' : m ∈ q.children := List.mem_of_mem_head? hqh
            have heq : q = m' :=
              parent_unique hwf.1 (mainPath_subset hq) hm'mem hq' hmem
            rw [← heq]
            exact hq
      · rw [if_neg hhead]
        constructor
        · intro hcontra
          simp at hcontra
        · intro hmmain
          exfalso
          rcases mainPath_pred hmmain with e | ⟨q, hq, hqh⟩
          · exact absurd e hmroot
          · have hq' : m ∈ q.children := List.mem_of_mem_head? hqh
            have heq : q = m' :=
              parent_unique hwf.1 (mainPath_subset hq) hm'mem hq' hmem
            subst heq
            exact hhead hqh

/-! ## Infrastructure: cache transparency of `get` -/

mutual
/-- The memoizing search returns exactly what the pure search returns,
whatever the incoming cache (the source never reads the cache inside
`inner`). -/
theorem dfsMemo_fst : ∀ {n : Node} {i : Nat} {cache : Cache},
    (dfsMemo i n cache).1 = findNode i n
  | .mk j d p cs, i, cache => by
    rw [dfsMemo, findNode]
    by_cases hj : j = i
    · rw [if_pos hj, if_pos hj]
    · rw [if_neg hj, if_neg hj]
      exact dfsMemoList_fst

/-- List version of `dfsMemo_fst`. -/
theorem dfsMemoList_fst : ∀ {cs : List Node} {i : Nat} {cache : Cache},
    (dfsMemoList i cs cache).1 = findNodeList i cs
  | [], i, cache => by rw [dfsMemoList, findNodeList]
  | c :: cs, i, cache => by
    rw [dfsMemoList, findNodeList]
    have h1 : (dfsMemo i c cache).1 = findNode i c := dfsMemo_fst
    cases hc : dfsMemo i c cache with
    | mk r c1 =>
      rw [hc] at h1
      dsimp only at h1
      rw [← h1]
      cases r with
      | some x => rfl
      | none => exact dfsMemoList_fst
end

mutual
/-- The memoizing search only prepends entries to the cache, and every
prepended entry maps a visited node's id to that node. -/
theorem dfsMemo_snd_append : ∀ {n : Node} {i : Nat} {cache : Cache},
    ∃ w, (dfsMemo i n cache).2 = w ++ cache ∧
      ∀ e ∈ w, ∃ m, e = (m.id, some m) ∧ m ∈ nodesOf n
  | .mk j d p cs, i, cache => by
    rw [dfsMemo]
    by_cases hj : j = i
    · rw [if_pos hj]
      refine ⟨[(j, some (Node.mk j d p cs))], rfl, ?_⟩
      intro e he
      rw [List.mem_singleton] at he
      exact ⟨.mk j d p cs, by rw [he]; rfl, self_mem_nodesOf _⟩
    · rw [if_neg hj]
      obtain ⟨w, hw, hent⟩ :=
        @dfsMemoList_snd_append cs i ((j, some (Node.mk j d p cs)) :: cache)
      refine ⟨w ++ [(j, some (Node.mk j d p cs))], ?_, ?_⟩
      · rw [hw, List.append_assoc]
        rfl
      · intro e he
        rcases List.mem_append.mp he with h | h
        · obtain ⟨m, hm1, c, hc, hm2⟩ := hent e h
          refine ⟨m, hm1, ?_⟩
          rw [nodesOf]
          exact List.mem_cons_of_mem _ (mem_nodesOfList.mpr ⟨c, hc, hm2⟩)
        · rw [List.mem_singleton] at h
          exact ⟨.mk j d p cs, by rw [h]; rfl, self_mem_nodesOf _⟩

/-- List version of `dfsMemo_snd_append`. -/
theorem dfsMemoList_snd_append : ∀ {cs : List Node} {i : Nat} {cache : Cache},
    ∃ w, (dfsMemoList i cs cache).2 = w ++ cache ∧
      ∀ e ∈ w, ∃ m, e = (m.id, some m) ∧ ∃ c ∈ cs, m ∈ nodesOf c
  | [], i, cache => by
    rw [dfsMemoList]
    exact ⟨[], rfl, by intro e he; cases he⟩
  | c :: cs, i, cache => by
    rw [dfsMemoList]
    obtain ⟨w1, hw1, hent1⟩ := @dfsMemo_snd_append c i cache
    cases hc : dfsMemo i c cache with
    | mk r c1 =>
      rw [hc] at hw1
      cases r with
      | some x =>
        dsimp only
        refine ⟨w1, hw1, ?_⟩
        intro e he
        obtain ⟨m, hm1, hm2⟩ := hent1 e he
        exact ⟨m, hm1, c, List.mem_cons_self _ _, hm2⟩
      | none =>
        dsimp only
        obtain ⟨w2, hw2, hent2⟩ := @dfsMemoList_snd_append cs i c1
        have hw1a : c1 = w1 ++ cache := hw1
        refine ⟨w2 ++ w1, ?_, ?_⟩
        · rw [hw2, hw1a, List.append_assoc]
        · intro e he
          rcases List.mem_append.mp he with h | h
          · obtain ⟨m, hm1, c', hc', hm2⟩ := hent2 e h
            exact ⟨m, hm1, c', List.mem_cons_of_mem _ hc', hm2⟩
          · obtain ⟨m, hm1, hm2⟩ := hent1 e h
            exact ⟨m, hm1, c, List.mem_cons_self _ _, hm2⟩
end

/-- Looked-up entries are members. -/
theorem assocFind_mem {α : Type} : ∀ {l : List (Nat × α)} {i : Nat} {v : α},
    assocFind l i = some v → (i, v) ∈ l
  | [], i, v, h => by rw [assocFind] at h; cases h
  | (k, w) :: rest, i, v, h => by
    rw [assocFind] at h
    by_cases hk : k = i
    · rw [if_pos hk] at h
      injection h with h
      subst hk; subst h
      exact List.mem_cons_self _ _
    · rw [if_neg hk] at h
      exact List.mem_cons_of_mem _ (assocFind_mem h)

/-- First-match lookup over an append falls through to the second list
only when the first has no entry. -/
theorem assocFind_append {α : Type} : ∀ {a b : List (Nat × α)} {i : Nat},
    assocFind (a ++ b) i =
      match assocFind a i with
      | some v => some v
      | none => assocFind b i
  | [], b, i => rfl
  | (k, w) :: a, b, i => by
    rw [List.cons_append, assocFind, assocFind]
    by_cases hk : k = i
    · rw [if_pos hk, if_pos hk]
    · rw [if_neg hk, if_neg hk]
      exact assocFind_append

theorem cacheValid_cons {t : GameTree} {cache : Cache}
    (hcv : CacheValid t cache) {k : Nat} {v : Option Node}
    (hv : v = findNode k t.root) : CacheValid t ((k, v) :: cache) := by
  intro i w h
  rw [assocFind] at h
  by_cases hk : k = i
  · rw [if_pos hk] at h
    injection h with h
    subst h
    rw [hv, hk]
  · rw [if_neg hk] at h
    exact hcv i w h

theorem foldl_warm_valid {t : GameTree} (hd : (idsOf t.root).Nodup) :
    ∀ (l : List Node), (∀ c ∈ l, c ∈ nodesOf t.root) → ∀ cache : Cache,
      CacheValid t cache →
      CacheValid t (l.foldl (fun acc c => (c.id, some c) :: acc) cache) := by
  intro l
  induction l with
  | nil => intro _ cache hcv; exact hcv
  | cons a l ih =>
    intro hall cache hcv
    rw [List.foldl_cons]
    refine ih (fun c hc => hall c (List.mem_cons_of_mem _ hc)) _ ?_
    exact cacheValid_cons hcv
      ((findNode_of_mem hd (hall a (List.mem_cons_self _ _))).symm)

theorem warmChildren_valid {t : GameTree} {cache : Cache}
    (hd : (idsOf t.root).Nodup) (hcv : CacheValid t cache) {n : Node}
    (hn : n ∈ nodesOf t.root) : CacheValid t (warmChildren n cache) := by
  unfold warmChildren
  exact foldl_warm_valid hd n.children
    (fun c hc => mem_nodesOf_trans (children_mem_nodesOf hc) hn) cache hcv

/-- The pair produced by the hit-or-search step of `get`: the answer is
the pure search answer and the cache stays valid. -/
theorem getAux_hit_spec {t : GameTree} (hwf : WFT t) {cache : Cache}
    (hcv : CacheValid t cache) (r : Nat) :
    (match assocFind cache r with
      | some v => (v, cache)
      | none => dfsMemo r t.root cache).1 = findNode r t.root ∧
    CacheValid t
      (match assocFind cache r with
        | some v => (v, cache)
        | none => dfsMemo r t.root cache).2 := by
  cases hf : assocFind cache r with
  | some v => exact ⟨hcv r v hf, hcv⟩
  | none =>
    refine ⟨dfsMemo_fst, ?_⟩
    obtain ⟨w, hw, hent⟩ := @dfsMemo_snd_append t.root r cache
    intro j v hj
    dsimp only at hj
    rw [hw, assocFind_append] at hj
    cases hfw : assocFind w j with
    | some u =>
      rw [hfw] at hj
      injection hj with hj
      subst hj
      obtain ⟨m, he, hm⟩ := hent _ (assocFind_mem hfw)
      injection he with he1 he2
      subst he1
      subst he2
      exact (findNode_of_mem hwf.1 hm).symm
    | none =>
      rw [hfw] at hj
      exact hcv j v hj

/-- A cache that only stores correct answers never changes what `get`
returns, and all entries it leaves behind are again correct. -/
theorem getC_transparent {t : GameTree} (hwf : WFT t) {cache : Cache}
    (hcv : CacheValid t cache) (oid : Option Nat) :
    (getC t cache oid).1 = t.get oid ∧ CacheValid t (getC t cache oid).2 := by
  cases oid with
  | none => exact ⟨rfl, hcv⟩
  | some i =>
    rw [getC, GameTree.get]
    cases hr : resolveId t i with
    | none => exact ⟨rfl, hcv⟩
    | some r =>
      dsimp only
      rw [getAux]
      obtain ⟨hh1, hh2⟩ := getAux_hit_spec hwf hcv r
      cases hres : (match assocFind cache r with
          | some v => (v, cache)
          | none => dfsMemo r t.root cache) with
      | mk node c1 =>
        rw [hres] at hh1 hh2
        have hh1a : node = findNode r t.root := hh1
        have hh2a : CacheValid t c1 := hh2
        cases node with
        | none =>
          dsimp only
          exact ⟨hh1a, cacheValid_cons hh2a hh1a⟩
        | some n =>
          dsimp only
          refine ⟨hh1a, ?_⟩
          have hn : n ∈ nodesOf t.root := (findNode_sound hh1a.symm).1
          exact warmChildren_valid hwf.1 hh2a hn

/-! ## Infrastructure: navigation -/

theorem iterOpt_none {f : Option Node → Option Node} (hf : f none = none) :
    ∀ k, iterOpt f k none = none := by
  intro k
  induction k with
  | zero => rfl
  | succ k ih => rw [iterOpt, hf]; exact ih

/-- Walking `k` steps up from a node reached by a root path lands on the
`k`-th entry of the reversed path (absent when the path is shorter). -/
theorem navigate_up_path {t : GameTree} (hwf : WFT t) (c : Currents) :
    ∀ (k : Nat) (p : List Node) (m : Node) (i : Nat), IsPath t.root p m →
      t.get (some i) = some m →
      navigate t (some i) (-(k : Int)) c = p.reverse.get? k := by
  intro k
  induction k with
  | zero =>
    intro p m i hp hget
    rw [navigate_unfold, hget]
    norm_num
    rw [← List.get?_eq_getElem?]
    exact (hp.reverse_head).symm
  | succ k ih =>
    intro p m i hp hget
    rw [navigate_unfold, hget]
    have h0 : ¬((-((k : Int) + 1) : Int) = 0) := by omega
    have hneg : (-((k : Int) + 1) : Int) < 0 := by omega
    have harith : (-((k : Int) + 1) : Int) + 1 = -(k : Int) := by ring
    push_cast
    rw [if_neg h0, if_pos hneg, harith]
    rcases hp.snoc_cases with ⟨hpe, hme⟩ | ⟨p', m', hp', hmem, hpe⟩
    · subst hme
      subst hpe
      rw [hwf.2.2.2, navigate_unfold]
      rfl
    · have hpar : m.parentId = some m'.id :=
        childrenOk_parentId hwf.2.2.1 hp'.target_mem hmem
      rw [hpar, ih p' m' m'.id hp' (get_of_mem hwf hp'.target_mem)]
      subst hpe
      rw [List.reverse_append]
      rfl

/-- Walking `k` steps down is the `k`-fold iteration of the single
downward step. -/
theorem navigate_down_iter {t : GameTree} (c : Currents) :
    ∀ (k : Nat) (oid : Option Nat),
      navigate t oid (k : Int) c =
        iterOpt (fun o => o.bind (stepDown t c)) k (t.get oid) := by
  intro k
  induction k with
  | zero =>
    intro oid
    rw [navigate_unfold, iterOpt]
    cases hg : t.get oid with
    | none => rfl
    | some n => norm_num
  | succ k ih =>
    intro oid
    rw [navigate_unfold, iterOpt]
    cases hg : t.get oid with
    | none =>
      exact (iterOpt_none rfl k).symm
    | some n =>
      have h0 : ¬(((k : Int) + 1 : Int) = 0) := by omega
      have hpos : ¬(((k : Int) + 1 : Int) < 0) := by omega
      have harith : (((k : Int) + 1 : Int) - 1) = (k : Int) := by ring
      push_cast
      rw [if_neg h0, if_neg hpos, harith]
      cases hn : nextIdOf c n with
      | none =>
        have hstep : (some n).bind (stepDown t c) = none := by
          rw [Option.some_bind, stepDown, hn]
        rw [hstep]
        exact (iterOpt_none rfl k).symm
      | some j =>
        dsimp only
        rw [ih (some j)]
        have hstep : (some n).bind (stepDown t c) = t.get (some j) := by
          rw [Option.some_bind, stepDown, hn]
        rw [hstep]

/-- `currents` is never consulted on the way up. -/
theorem navigate_up_currents : ∀ (k : Nat) (t : GameTree) (oid : Option Nat)
    (step : Int) (c1 c2 : Currents), step ≤ 0 → step.natAbs = k →
    navigate t oid step c1 = navigate t oid step c2 := by
  intro k
  induction k with
  | zero =>
    intro t oid step c1 c2 hstep hk
    have h0 : step = 0 := by omega
    subst h0
    rw [navigate_unfold, navigate_unfold]
    cases hg : t.get oid with
    | none => rfl
    | some n =>
      dsimp only
      rw [if_pos rfl, if_pos rfl]
  | succ k ih =>
    intro t oid step c1 c2 hstep hk
    have h0 : step ≠ 0 := by omega
    have hneg : step < 0 := by omega
    rw [navigate_unfold, navigate_unfold]
    cases hg : t.get oid with
    | none => rfl
    | some n =>
      dsimp only
      rw [if_neg h0, if_neg h0, if_pos hneg, if_pos hneg]
      exact ih t n.parentId (step + 1) c1 c2 (by omega) (by omega)

/-! ## Infrastructure: sequences and levels -/

/-- With enough fuel, `getSequence` materializes the single-child
chain. -/
theorem getSequenceF_spec {t : GameTree} (hwf : WFT t) :
    ∀ (f : Nat) (n : Node) (i : Nat), t.get (some i) = some n →
      n ∈ nodesOf t.root → countNodes n ≤ f →
      getSequenceF t f (some i) = some (seqSpec n) := by
  intro f
  induction f with
  | zero =>
    intro n i hget hmem hcount
    have := countNodes_pos n
    omega
  | succ f ih =>
    intro n i hget hmem hcount
    rw [getSequenceF, hget]
    cases n with
    | mk a d p cs =>
      match cs with
      | [] =>
        dsimp only [Node.children]
        rw [seqSpec]
      | [c] =>
        have hcm : c ∈ (Node.mk a d p [c]).children := List.mem_cons_self _ _
        have hcmem : c ∈ nodesOf t.root :=
          mem_nodesOf_trans (children_mem_nodesOf hcm) hmem
        have hlt : countNodes c < countNodes (Node.mk a d p [c]) :=
          countNodes_lt_of_mem_children hcm
        dsimp only [Node.children]
        rw [ih c c.id (get_of_mem hwf hcmem) hcmem (by omega), seqSpec]
        rfl
      | c :: c2 :: cs' =>
        dsimp only [Node.children]
        rw [seqSpec]

/-- `getLevel` of a resolvable id whose node is reached by a root path
of `l + 1` nodes returns level `l` — provided the id is not a proper
alias of the root (that case, `getLevelF_root_alias`, is the JavaScript
`null + 1` quirk). -/
theorem getLevelF_path {t : GameTree} (hwf : WFT t) :
    ∀ (f : Nat) (p : List Node) (m : Node) (i : Nat), IsPath t.root p m →
      t.get (some i) = some m → (m = t.root → i = t.root.id) →
      p.length ≤ f →
      getLevelF t f (some i) = some (some (p.length - 1)) := by
  intro f
  induction f with
  | zero =>
    intro p m i hp hget hroot hlen
    have := hp.length_pos
    omega
  | succ f ih =>
    intro p m i hp hget hroot hlen
    rcases hp.snoc_cases with ⟨hpe, hme⟩ | ⟨p', m', hp', hmem, hpe⟩
    · subst hme
      have hi : i = t.root.id := hroot rfl
      subst hi
      subst hpe
      rw [getLevelF, if_pos rfl]
      simp
    · have hmroot : m ≠ t.root := by
        intro e
        subst e
        have h2 := hp.to_root
        rw [hpe] at h2
        have h3 := congrArg List.length h2
        rw [List.length_append] at h3
        simp only [List.length_singleton] at h3
        have h4 := hp'.length_pos
        omega
      have hine : ¬(some i = some t.root.id) := by
        intro e
        injection e with e
        subst e
        have : t.get (some t.root.id) = some t.root :=
          get_of_mem hwf (self_mem_nodesOf _)
        rw [hget] at this
        injection this with this
        exact hmroot this
      rw [getLevelF, if_neg hine, hget]
      dsimp only
      have hpar : m.parentId = some m'.id :=
        childrenOk_parentId hwf.2.2.1 hp'.target_mem hmem
      rw [hpar]
      have h6 : p.length = p'.length + 1 := by
        rw [hpe]
        simp
      have hlen' : p'.length ≤ f := by omega
      rw [ih p' m' m'.id hp' (get_of_mem hwf hp'.target_mem)
        (fun e => by rw [e]) hlen']
      have h5 := hp'.length_pos
      have h7 : Option.map (fun r : Option Nat => some (r.getD 0 + 1))
          (some (some (p'.length - 1))) = some (some (p'.length - 1 + 1)) := rfl
      rw [h7]
      have h8 : p'.length - 1 + 1 = p.length - 1 := by omega
      rw [h8]

/-- `getLevel` of a proper alias of the root: the recursive call gets
`null` for the root's parent and JavaScript computes `null + 1 = 1`. -/
theorem getLevelF_root_alias {t : GameTree} (hwf : WFT t) (f : Nat) {i : Nat}
    (hres : resolveId t i = some t.root.id) (hne : i ≠ t.root.id) :
    getLevelF t (f + 2) (some i) = some (some 1) := by
  have hget : t.get (some i) = some t.root := by
    rw [GameTree.get, hres]
    exact findNode_of_mem hwf.1 (self_mem_nodesOf _)
  rw [getLevelF, if_neg (by simp [hne]), hget]
  dsimp only
  rw [hwf.2.2.2]
  rw [getLevelF, if_neg (by simp)]
  rfl

/-! ## Infrastructure: behavior on unresolvable ids -/

/-- An id `get` cannot resolve cannot be the root's id (in a well-formed
tree the root's id is never aliased away). -/
theorem not_root_id_of_get_none {t : GameTree} (hwf : WFT t) {i : Nat}
    (h : t.get (some i) = none) : i ≠ t.root.id := by
  intro e
  subst e
  rw [get_of_mem hwf (self_mem_nodesOf _)] at h
  cases h

theorem getLevelF_none {t : GameTree} (hwf : WFT t) {i : Nat}
    (h : t.get (some i) = none) (f : Nat) :
    getLevelF t (f + 1) (some i) = some none := by
  rw [getLevelF, if_neg (by simp [not_root_id_of_get_none hwf h]), h]

theorem navigate_none {t : GameTree} {i : Nat}
    (h : t.get (some i) = none) (step : Int) (c : Currents) :
    navigate t (some i) step c = none := by
  rw [navigate_unfold, h]

theorem getSequenceF_none {t : GameTree} {i : Nat}
    (h : t.get (some i) = none) (f : Nat) :
    getSequenceF t (f + 1) (some i) = some [] := by
  rw [getSequenceF, h]

theorem listNodesVerticallyF_none {t : GameTree} {i : Nat}
    (h : t.get (some i) = none) (f : Nat) {step : Int}
    (hstep : step.natAbs = 1) (c : Currents) :
    listNodesVerticallyF t f (some i) step c = .ok (some []) := by
  rw [listNodesVerticallyF, if_neg (by omega), h]
  cases f <;> rfl

theorem listNodesHorizontallyF_none {t : GameTree} (hwf : WFT t) {i : Nat}
    (h : t.get (some i) = none) (f : Nat) {step : Int}
    (hstep : step.natAbs = 1) :
    listNodesHorizontallyF t (f + 1) (some i) step = .ok (some []) := by
  rw [listNodesHorizontallyF, if_neg (by omega),
    getLevelF_none hwf h f]
  rfl

theorem onCurrentLineF_none {t : GameTree} {i : Nat}
    (h : t.get (some i) = none) (f : Nat) (c : Currents) :
    onCurrentLineF t (f + 1) (some i) c = some (.error ()) := by
  rw [onCurrentLineF, h]

/-! ## Infrastructure: structure hash -/

mutual
/-- The structure hash only reads what `eraseData` keeps: ids and
shape. -/
theorem hashNode_erase : ∀ {n n' : Node}, eraseData n = eraseData n' →
    ∀ h, hashNode n h = hashNode n' h
  | .mk i d p cs, .mk i' d' p' cs', he, h => by
    rw [eraseData, eraseData] at he
    injection he with h1 h2
    subst h1
    rw [hashNode, hashNode, hashNodeList_erase h2]

/-- List version of `hashNode_erase`. -/
theorem hashNodeList_erase : ∀ {cs cs' : List Node},
    eraseDataList cs = eraseDataList cs' →
    ∀ h, hashNodeList cs h = hashNodeList cs' h
  | [], [], _, h => rfl
  | [], c' :: cs', he, h => by
    rw [eraseDataList, eraseDataList] at he
    cases he
  | c :: cs, [], he, h => by
    rw [eraseDataList, eraseDataList] at he
    cases he
  | c :: cs, c' :: cs', he, h => by
    rw [eraseDataList, eraseDataList] at he
    injection he with h1 h2
    rw [hashNodeList, hashNodeList, hashNode_erase h1, hashNodeList_erase h2]
end

/-! ## Infrastructure: subtree sizes -/

theorem idsOf_sublist_of_mem : ∀ {r q : Node}, q ∈ nodesOf r →
    List.Sublist (idsOf q) (idsOf r)
  | .mk i d p cs, q, hq => by
    rw [nodesOf] at hq
    rcases List.mem_cons.mp hq with e | e
    · subst e
      exact List.Sublist.refl _
    · obtain ⟨c, hc, hqc⟩ := mem_nodesOfList.mp e
      have h1 : List.Sublist (idsOf q) (idsOf c) := idsOf_sublist_of_mem hqc
      have h2 := idsOf_sublist_of_mem_list hc
      unfold idsOf
      rw [nodesOf, List.map_cons]
      exact ((h1.trans h2).trans (List.sublist_cons_self _ _))
termination_by r => sizeOf r
decreasing_by
  have := List.sizeOf_lt_of_mem hc
  simp; omega

theorem countNodes_le_of_mem {r q : Node} (hq : q ∈ nodesOf r) :
    countNodes q ≤ countNodes r := by
  have := (idsOf_sublist_of_mem hq).length_le
  simpa [idsOf, countNodes] using this

/-! ## Claim theorems -/

/-- C1: for every tree and identifier, `get` returns absent or a node
whose id equals the alias-resolved query id; `get` of an absent id is
absent, an id carried by no node yields absent, and the memoization
cache (including the known-absent sentinel) never changes the returned
result: with any valid cache, the cached `get` returns exactly what the
pure `get` returns and leaves the cache valid. -/
theorem claim_C1 (t : GameTree) (hwf : WFT t) :
    t.get none = none ∧
    (∀ i n, t.get (some i) = some n → ∃ r, resolveId t i = some r ∧ n.id = r) ∧
    (∀ i r, resolveId t i = some r → (∀ m ∈ nodesOf t.root, m.id ≠ r) →
      t.get (some i) = none) ∧
    (∀ cache oid, CacheValid t cache →
      (getC t cache oid).1 = t.get oid ∧ CacheValid t (getC t cache oid).2) := by
  refine ⟨rfl, ?_, ?_, ?_⟩
  · intro i n h
    exact ⟨n.id, (get_sound h).2, rfl⟩
  · intro i r hres habs
    rw [GameTree.get, hres]
    dsimp only
    cases hf : findNode r t.root with
    | none => rfl
    | some x =>
      obtain ⟨hx, hxi⟩ := findNode_sound hf
      exact absurd hxi (habs x hx)
  · intro cache oid hcv
    exact getC_transparent hwf hcv oid

/-- Witness for C1 on the scenario tree with an empty cache and id 1. -/
theorem claim_C1_witness :
    WFT tree0 ∧ CacheValid tree0 [] ∧
    (getC tree0 [] (some 1)).1 = tree0.get (some 1) ∧
    CacheValid tree0 (getC tree0 [] (some 1)).2 := by
  have hwf : WFT tree0 := by decide
  have hcv : CacheValid tree0 [] := by
    intro i v h
    simp [assocFind] at h
  obtain ⟨h1, h2⟩ := (claim_C1 tree0 hwf).2.2.2 [] (some 1) hcv
  exact ⟨hwf, hcv, h1, h2⟩

/-- C2: `mutate` no-op law — when the builder's resulting root is the
original root, `mutate` returns the very tree instance it was called on
(object identity modelled as equality of the embedded instance, which in
particular keeps every cache field untouched). -/
theorem claim_C2 (t : GameTree) (draft : DraftResult)
    (h : draft.root = t.root) : mutate t draft = t := by
  rw [mutate, if_pos h]

/-- Witness for C2: a no-op draft over the scenario tree. -/
theorem claim_C2_witness :
    draft0.root = tree0.root ∧ mutate tree0 draft0 = tree0 :=
  ⟨by decide, claim_C2 tree0 draft0 (by decide)⟩

/-- Counterexample to C3 as stated: `onCurrentLine` (and hence
`onMainLine`) does not return an absent result on an identifier that
resolves to no node — the source destructures `let {parentId} = node`
with `node === null` and throws a `TypeError` (modelled as
`Except.error`).  Concretely, on the scenario tree the unknown id 9
makes `onCurrentLine` throw. -/
theorem claim_C3_counterexample :
    tree0.get (some 9) = none ∧
    onCurrentLineF tree0 2 (some 9) [] = some (.error ()) :=
  ⟨by decide, by decide⟩

/-- C3 (amended): on an identifier the tree does not resolve,
`navigate`, `getLevel`, `getSequence`, `listNodesVertically` and
`listNodesHorizontally` (with valid step) return an absent result or an
empty sequence and terminate — for every fuel bound, one step of fuel
suffices; `onCurrentLine`/`onMainLine`, however, throw a `TypeError`
instead (excluded from the original claim's never-raises list). -/
theorem claim_C3 (t : GameTree) (hwf : WFT t) (i : Nat)
    (h : t.get (some i) = none) :
    (∀ step c, navigate t (some i) step c = none) ∧
    (∀ f, getLevelF t (f + 1) (some i) = some none) ∧
    (∀ f, getSequenceF t (f + 1) (some i) = some []) ∧
    (∀ f step c, step.natAbs = 1 →
      listNodesVerticallyF t f (some i) step c = .ok (some [])) ∧
    (∀ f step, step.natAbs = 1 →
      listNodesHorizontallyF t (f + 1) (some i) step = .ok (some [])) ∧
    (∀ f c, onCurrentLineF t (f + 1) (some i) c = some (.error ())) :=
  ⟨fun step c => navigate_none h step c,
   fun f => getLevelF_none hwf h f,
   fun f => getSequenceF_none h f,
   fun f step c hs => listNodesVerticallyF_none h f hs c,
   fun f step hs => listNodesHorizontallyF_none hwf h f hs,
   fun f c => onCurrentLineF_none h f c⟩

/-- Witness for C3 on the scenario tree and the unknown id 9. -/
theorem claim_C3_witness :
    WFT tree0 ∧ tree0.get (some 9) = none ∧
    navigate tree0 (some 9) 1 [] = none ∧
    listNodesHorizontallyF tree0 5 (some 9) 1 = .ok (some []) := by
  have hwf : WFT tree0 := by decide
  have h9 : tree0.get (some 9) = none := by decide
  have hc := claim_C3 tree0 hwf 9 h9
  exact ⟨hwf, h9, hc.1 1 [], hc.2.2.2.2.1 4 1 (by decide)⟩

/-- C4: `navigate` with step 0 returns the resolved node itself; with
step `-k` it lands on the `k`-th entry of the reversed root path of the
resolved node (absent once the parent chain has ended); with step `+k`
it is the `k`-fold iteration of the single downward step that prefers
`currents[node.id]` and falls back to the first child, stopping (absent)
when there are no children. -/
theorem claim_C4 (t : GameTree) (hwf : WFT t) :
    (∀ oid n c, t.get oid = some n → navigate t oid 0 c = some n) ∧
    (∀ (k : Nat) p m i c, IsPath t.root p m → t.get (some i) = some m →
      navigate t (some i) (-(k : Int)) c = p.reverse.get? k) ∧
    (∀ (k : Nat) oid c, navigate t oid (k : Int) c =
      iterOpt (fun o => o.bind (stepDown t c)) k (t.get oid)) := by
  refine ⟨?_, ?_, ?_⟩
  · intro oid n c hget
    rw [navigate_unfold, hget]
    dsimp only
    rw [if_pos rfl]
  · intro k p m i c hp hget
    exact navigate_up_path hwf c k p m i hp hget
  · intro k oid c
    exact navigate_down_iter c k oid

/-- Witness for C4, the scenario of spec §8: navigating from C (id 3)
with step -2 and empty `currents` returns the root R. -/
theorem claim_C4_witness :
    WFT tree0 ∧ navigate tree0 (some 3) (-2) [] = some rootR0 := by
  have hwf : WFT tree0 := by decide
  have hp : IsPath tree0.root [rootR0, nodeA0, nodeC0] nodeC0 := by
    refine IsPath.cons ?_ (IsPath.cons ?_ (IsPath.single _))
    · decide
    · decide
  have h2 := (claim_C4 tree0 hwf).2.1 2 [rootR0, nodeA0, nodeC0] nodeC0 3 []
    hp (by decide)
  refine ⟨hwf, ?_⟩
  have h3 : ((-2 : Int)) = -((2 : Nat) : Int) := by norm_num
  rw [h3, h2]
  decide

/-- C5: `getSequence` of an absent id yields nothing; for a resolvable
id it yields exactly the single-child chain of the resolved node (the
node first, then repeatedly the unique child, ending at the first node
with zero or several children, inclusive), for every sufficient fuel. -/
theorem claim_C5 (t : GameTree) (hwf : WFT t) :
    (∀ f i, t.get (some i) = none → getSequenceF t (f + 1) (some i) = some []) ∧
    (∀ f i n, t.get (some i) = some n → countNodes t.root ≤ f →
      getSequenceF t f (some i) = some (seqSpec n)) := by
  refine ⟨fun f i h => getSequenceF_none h f, ?_⟩
  intro f i n hget hf
  have hmem : n ∈ nodesOf t.root := (get_sound hget).1
  exact getSequenceF_spec hwf f n i hget hmem
    (le_trans (countNodes_le_of_mem hmem) hf)

/-- Witness for C5, the scenario of spec §8: `getSequence(1)` yields
`[A, C]`. -/
theorem claim_C5_witness :
    WFT tree0 ∧ getSequenceF tree0 4 (some 1) = some (seqSpec nodeA0) ∧
    seqSpec nodeA0 = [nodeA0, nodeC0] := by
  have hwf : WFT tree0 := by decide
  refine ⟨hwf, ?_, by decide⟩
  exact (claim_C5 tree0 hwf).2 4 1 nodeA0 (by decide) (by decide)

/-- Counterexample to C6 as stated: with an alias `9 → 0` of the root,
`onMainLine(9)` is true, yet 9 is not the id of any node yielded by
`listMainNodes()` — the law only holds after resolving the queried id
through the alias table. -/
theorem claim_C6_counterexample :
    onCurrentLineF treeAliasRoot 5 (some 9) [] = some (.ok true) ∧
    listMainNodesF treeAliasRoot 5 = .ok (some [rootR0, nodeA0, nodeC0]) ∧
    ¬(9 ∈ (mainPath treeAliasRoot.root).map Node.id) := by
  refine ⟨by decide, by decide, by decide⟩

/-- C6 (amended): `listMainNodes` yields exactly the main path, and
`T.onMainLine(id)` returns true iff the alias-resolved id appears among
the ids that `listMainNodes()` yields (the unamended claim fails for
alias keys, which satisfy `onMainLine` but are never yielded). -/
theorem claim_C6 (t : GameTree) (hwf : WFT t) (f : Nat)
    (hf : countNodes t.root + 1 ≤ f) :
    listMainNodesF t f = .ok (some (mainPath t.root)) ∧
    (∀ i, onCurrentLineF t f (some i) [] = some (Except.ok true) ↔
      ∃ r, resolveId t i = some r ∧ r ∈ (mainPath t.root).map Node.id) := by
  constructor
  · rw [listMainNodesF, listCurrentNodesF, listNodesVerticallyF,
      if_neg (by norm_num), get_of_mem hwf (self_mem_nodesOf _),
      vertLoopF_mainPath hwf f t.root (self_mem_nodesOf _) (by omega)]
  · intro i
    cases hg : t.get (some i) with
    | none =>
      obtain ⟨f', rfl⟩ : ∃ f', f = f' + 1 :=
        ⟨f - 1, by have := countNodes_pos t.root; omega⟩
      rw [onCurrentLineF_none hg f' []]
      constructor
      · intro hcontra
        simp at hcontra
      · rintro ⟨r, hr, hrm⟩
        obtain ⟨m, hm, hmid⟩ := List.mem_map.mp hrm
        rw [GameTree.get, hr] at hg
        dsimp only at hg
        rw [← hmid, findNode_of_mem hwf.1 (mainPath_subset hm)] at hg
        cases hg
    | some m =>
      obtain ⟨hmmem, hres⟩ := get_sound hg
      obtain ⟨p, hp⟩ := exists_path hmmem
      have hlen : p.length ≤ f := le_trans hp.length_le_count (by omega)
      rw [onCurrentLine_mainPath hwf f p m i hp hlen hg]
      constructor
      · intro hmain
        exact ⟨m.id, hres, List.mem_map_of_mem _ hmain⟩
      · rintro ⟨r, hr, hrm⟩
        rw [hres] at hr
        injection hr with hr
        obtain ⟨m2, hm2, hm2id⟩ := List.mem_map.mp hrm
        have heq : m2 = m := node_id_inj hwf.1 (mainPath_subset hm2) hmmem
          (by rw [hm2id, hr])
        rw [← heq]
        exact hm2

/-- Witness for C6 on the scenario tree at the main-line id 3. -/
theorem claim_C6_witness :
    WFT tree0 ∧ countNodes tree0.root + 1 ≤ 5 ∧
    listMainNodesF tree0 5 = .ok (some (mainPath tree0.root)) ∧
    (onCurrentLineF tree0 5 (some 3) [] = some (Except.ok true) ↔
      ∃ r, resolveId tree0 3 = some r ∧
        r ∈ (mainPath tree0.root).map Node.id) := by
  have hwf : WFT tree0 := by decide
  have h := claim_C6 tree0 hwf 5 (by decide)
  exact ⟨hwf, by decide, h.1, h.2 3⟩

/-- Counterexample to C7 as stated: with an alias `9 → 0` of the root,
`getLevel(9)` returns 1 rather than the root's depth 0 — the recursive
call receives the root's `null` parent and JavaScript computes
`null + 1 = 1`. -/
theorem claim_C7_counterexample :
    getLevelF treeAliasRoot 3 (some 9) = some (some 1) ∧
    getLevelF treeAliasRoot 3 (some 9) ≠ some (some 0) :=
  ⟨by decide, by decide⟩

/-- C7 (amended): `getLevel` returns absent on an unresolvable id; on an
id resolving to a node reached by the root path `p` it returns
`p.length - 1` edge steps — except when a proper alias resolves to the
root itself, where it returns 1 (the JavaScript `null + 1` coercion)
instead of 0. -/
theorem claim_C7 (t : GameTree) (hwf : WFT t) :
    (∀ f i, t.get (some i) = none → getLevelF t (f + 1) (some i) = some none) ∧
    (∀ f p m i, IsPath t.root p m → t.get (some i) = some m →
      (m = t.root → i = t.root.id) → p.length ≤ f →
      getLevelF t f (some i) = some (some (p.length - 1))) ∧
    (∀ f i, resolveId t i = some t.root.id → i ≠ t.root.id →
      getLevelF t (f + 2) (some i) = some (some 1)) :=
  ⟨fun f i h => getLevelF_none hwf h f,
   fun f p m i hp hget hroot hlen => getLevelF_path hwf f p m i hp hget hroot hlen,
   fun f i hres hne => getLevelF_root_alias hwf f hres hne⟩

/-- Witness for C7, the scenario of spec §8: `getLevel(3) = 2`. -/
theorem claim_C7_witness :
    WFT tree0 ∧ getLevelF tree0 3 (some 3) = some (some 2) := by
  have hwf : WFT tree0 := by decide
  have hp : IsPath tree0.root [rootR0, nodeA0, nodeC0] nodeC0 := by
    refine IsPath.cons ?_ (IsPath.cons ?_ (IsPath.single _))
    · decide
    · decide
  have h := (claim_C7 tree0 hwf).2.1 3 [rootR0, nodeA0, nodeC0] nodeC0 3 hp
    (by decide) (fun e => absurd e (by decide)) (by decide)
  exact ⟨hwf, h⟩

/-- C8: the structure hash is payload-independent and deterministic —
two fresh trees whose roots carry identical ids in identical shape hash
identically whatever their payloads, and a repeated call (which reads
the cache the first call filled) returns the same value. -/
theorem claim_C8 :
    (∀ t1 t2 : GameTree, t1.structureHashCache = none →
      t2.structureHashCache = none → eraseData t1.root = eraseData t2.root →
      (getStructureHashR t1).1 = (getStructureHashR t2).1) ∧
    (∀ t : GameTree, (getStructureHashR (getStructureHashR t).2).1 =
      (getStructureHashR t).1) := by
  constructor
  · intro t1 t2 h1 h2 he
    rw [getStructureHashR, getStructureHashR, h1, h2]
    exact hashNode_erase he 5381
  · intro t
    cases hc : t.structureHashCache with
    | some v => simp [getStructureHashR, hc]
    | none => simp [getStructureHashR, hc]

/-- Witness for C8: the scenario tree and its payload-variant hash
identically. -/
theorem claim_C8_witness :
    tree0.structureHashCache = none ∧ tree0b.structureHashCache = none ∧
    eraseData tree0.root = eraseData tree0b.root ∧
    (getStructureHashR tree0).1 = (getStructureHashR tree0b).1 := by
  refine ⟨rfl, rfl, rfl, ?_⟩
  exact claim_C8.1 tree0 tree0b rfl rfl rfl

/-- C9: `listNodesHorizontally` and `listNodesVertically` throw the
invalid-step error, before yielding anything, exactly when `step` is
neither `1` nor `-1`. -/
theorem claim_C9 (t : GameTree) (fuel : Nat) (startId : Option Nat)
    (step : Int) (c : Currents) :
    (listNodesHorizontallyF t fuel startId step = .error () ↔
      (step ≠ 1 ∧ step ≠ -1)) ∧
    (listNodesVerticallyF t fuel startId step c = .error () ↔
      (step ≠ 1 ∧ step ≠ -1)) := by
  have habs : (step.natAbs ≠ 1) ↔ (step ≠ 1 ∧ step ≠ -1) := by omega
  constructor
  · rw [listNodesHorizontallyF]
    by_cases h : step.natAbs ≠ 1
    · rw [if_pos h]
      exact ⟨fun _ => habs.mp h, fun _ => rfl⟩
    · rw [if_neg h]
      constructor
      · intro hcontra
        cases hg : getLevelF t fuel startId with
        | none => rw [hg] at hcontra; cases hcontra
        | some lvl => rw [hg] at hcontra; cases hcontra
      · intro hs
        exact absurd (habs.mpr hs) h
  · rw [listNodesVerticallyF]
    by_cases h : step.natAbs ≠ 1
    · rw [if_pos h]
      exact ⟨fun _ => habs.mp h, fun _ => rfl⟩
    · rw [if_neg h]
      constructor
      · intro hcontra
        cases hcontra
      · intro hs
        exact absurd (habs.mpr hs) h

/-- C10: upward (and zero) navigation ignores the `currents` mapping
entirely: for `step ≤ 0` the result is the same under any two
mappings. -/
theorem claim_C10 (t : GameTree) (oid : Option Nat) (step : Int)
    (c1 c2 : Currents) (h : step ≤ 0) :
    navigate t oid step c1 = navigate t oid step c2 :=
  navigate_up_currents step.natAbs t oid step c1 c2 h rfl

/-- Witness for C10 on the scenario tree with two different mappings. -/
theorem claim_C10_witness :
    (-1 : Int) ≤ 0 ∧
    navigate tree0 (some 3) (-1) [(0, 2)] = navigate tree0 (some 3) (-1) [] :=
  ⟨by decide, claim_C10 tree0 (some 3) (-1) [(0, 2)] [] (by decide)⟩
